import Mathlib

/-!
# Verification of the chatroom server's client registry and broadcast engine

A shallow embedding of the server-side core of the chatroom application
(`src/server.c`, `src/chatroom.h`): the client pool (registry), the
`AddClient` / `RemoveClient` / `BroadcastMessage` operations, the accept
retry loop of `AcceptConnection`, and the per-client handler's name
handshake and message loop (`HandleClient`).

Conventions of the embedding:

* The pool's fixed array `client_t *clients[kMaxClients]` together with its
  `len` field is modelled as the list of its first `len` (non-NULL) entries.
* The socket side effects `send` and `close` are made explicit: broadcast is
  parameterised by a function saying which sends succeed and returns the
  list of clients to which a send was attempted; removal returns the list
  of file descriptors it closed.
* `accept` outcomes are an oracle `Nat → AcceptOutcome` giving the result
  of each successive call.
* C byte buffers are lists of `Char`; an index computed in C `ssize_t`
  arithmetic is an `Int`, and reads/writes through such an index go through
  total `getAt` / `setAt` helpers that return `none` out of range.
-/

namespace Chatroom

/-- `#define kNameCharLimit 64` (chatroom.h). -/
def kNameCharLimit : Nat := 64

/-- `#define kMaxClients 10` (chatroom.h). -/
def kMaxClients : Nat := 10

/-- `const size_t kMessageCharLimit = 4096` (chatroom.h). -/
def kMessageCharLimit : Nat := 4096

/-- `const size_t kMaxConnectionAttempts = 5` (chatroom.h). -/
def kMaxConnectionAttempts : Nat := 5

/-- Modelled from the spec: the constant `kExitCommand` is referenced by
`server.c` (line 256) but its definition is not part of the given sources;
the spec fixes it as "the literal token `/exit`". -/
def kExitCommand : List Char := ['/', 'e', 'x', 'i', 't']

/-- The NUL byte `'\0'`. -/
def nul : Char := Char.ofNat 0

/-- Bool test for a non-NUL byte (C strings end at the first NUL). -/
def notNul (c : Char) : Bool := c != nul

/-- `client_t` (chatroom.h): connection descriptor, unique id, and the
name buffer.  The C `char name[kNameCharLimit]` starts uninitialized and is
only written during the handshake; we model it as `Option (List Char)`,
`none` standing for a not-yet-set name and `some buf` for the 64-byte
buffer contents after the handshake wrote it. -/
structure client_t where
  connfd : Int
  uid : Int
  name : Option (List Char)
deriving DecidableEq, Repr

/-- `client_pool_t` (chatroom.h): the `clients` array restricted to its
first `len` live entries, in order. -/
abbrev client_pool_t := List client_t

/-- `AddClient` (server.c lines 189-202): under the pool mutex, fail with
`-1` if `pool.len + 1 >= kMaxClients`, otherwise append the client at index
`len` and increment `len`.  Returns the new pool and the C return value. -/
def AddClient (pool : client_pool_t) (cli : client_t) : client_pool_t × Int :=
  if pool.length + 1 ≥ kMaxClients then (pool, -1)
  else (pool ++ [cli], 0)

/-- A pool of `n` distinct placeholder clients, used for the concrete
capacity-boundary instances. -/
def samplePool (n : Nat) : client_pool_t :=
  (List.range n).map (fun i => client_t.mk 0 (Int.ofNat i) none)

/-- C1: `AddClient` fails with `-1` and leaves the pool unchanged exactly
when `len + 1 ≥ kMaxClients` (usable capacity is `kMaxClients - 1`);
otherwise it appends the client at the end and increments the count.
Concretely, with capacity 10, the 9th add (onto a pool of 8) succeeds and
the 10th add (onto a pool of 9) is rejected. -/
theorem addClient_capacity_spec (pool : client_pool_t) (cli : client_t) :
    (if kMaxClients ≤ pool.length + 1 then
       AddClient pool cli = (pool, -1)
     else
       AddClient pool cli = (pool ++ [cli], 0) ∧
       (AddClient pool cli).1.length = pool.length + 1) ∧
    AddClient (samplePool 8) (client_t.mk 0 8 none)
      = (samplePool 8 ++ [client_t.mk 0 8 none], 0) ∧
    AddClient (samplePool 9) (client_t.mk 0 9 none) = (samplePool 9, -1) := by
  refine ⟨?_, by decide, by decide⟩
  by_cases h : kMaxClients ≤ pool.length + 1
  · simp only [h, if_pos]
    simp [AddClient, h]
  · simp only [h, if_neg, not_false_iff]
    have h2 : ¬ (pool.length + 1 ≥ kMaxClients) := h
    constructor
    · simp [AddClient, h2]
    · simp [AddClient, h2]

/-- The loop body of `BroadcastMessage` (server.c lines 297-306) over the
remaining suffix of the pool: skip the sender's uid, attempt a send to every
other client in order, and abort with `-1` right after the first failing
send.  Returns the list of clients to which a send was attempted (in order,
the failing one included) and the C return value. -/
def BroadcastGo (sendOk : client_t → Bool) (uid : Int) :
    List client_t → List client_t × Int
  | [] => ([], 0)
  | c :: rest =>
    if c.uid = uid then BroadcastGo sendOk uid rest
    else if sendOk c then
      (c :: (BroadcastGo sendOk uid rest).1, (BroadcastGo sendOk uid rest).2)
    else ([c], -1)

/-- `BroadcastMessage` (server.c lines 294-311): under the pool mutex, walk
the pool and send the message to every client whose uid differs from the
sender's, returning `-1` on the first failed send and `0` otherwise.
`sendOk` abstracts which `send` calls succeed. -/
def BroadcastMessage (sendOk : client_t → Bool) (pool : client_pool_t)
    (uid : Int) : List client_t × Int :=
  BroadcastGo sendOk uid pool

/-- The clients of the pool other than the sender, in pool order. -/
def nonExcluded (pool : client_pool_t) (uid : Int) : List client_t :=
  pool.filter (fun c => c.uid != uid)

theorem broadcastGo_eq (sendOk : client_t → Bool) (uid : Int)
    (l : List client_t) :
    BroadcastGo sendOk uid l =
      if (l.filter (fun c => c.uid != uid)).all sendOk then
        (l.filter (fun c => c.uid != uid), 0)
      else
        ((l.filter (fun c => c.uid != uid)).takeWhile sendOk
           ++ ((l.filter (fun c => c.uid != uid)).dropWhile sendOk).take 1,
         -1) := by
  induction l with
  | nil => simp [BroadcastGo]
  | cons c rest ih =>
    by_cases hx : c.uid = uid
    · simpa [BroadcastGo, hx] using ih
    · have hx2 : (c.uid != uid) = true := by simp [hx]
      by_cases hs : sendOk c = true
      · by_cases ha : ((rest.filter (fun c => c.uid != uid)).all sendOk) = true
        · simp [BroadcastGo, hx, hx2, hs, ha, ih]
        · simp only [Bool.not_eq_true] at ha
          simp [BroadcastGo, hx, hx2, hs, ha, ih]
      · simp only [Bool.not_eq_true] at hs
        simp [BroadcastGo, hx, hx2, hs]

/-- C2: `BroadcastMessage` never attempts a send to the sender's uid; when
every send to a non-excluded client succeeds, it attempts exactly the
non-excluded clients in pool order and returns `0`; otherwise it attempts
the successful prefix plus the single first-failing client, returns `-1`,
and attempts none of the remaining sends. -/
theorem broadcastMessage_excludes_sender_and_fails_fast
    (sendOk : client_t → Bool) (pool : client_pool_t) (uid : Int) :
    ((BroadcastMessage sendOk pool uid).1.all (fun c => c.uid != uid))
      = true ∧
    (if (nonExcluded pool uid).all sendOk then
       BroadcastMessage sendOk pool uid = (nonExcluded pool uid, 0)
     else
       BroadcastMessage sendOk pool uid =
         ((nonExcluded pool uid).takeWhile sendOk
            ++ ((nonExcluded pool uid).dropWhile sendOk).take 1, -1)) := by
  have hgo := broadcastGo_eq sendOk uid pool
  constructor
  · rw [List.all_eq_true]
    intro c hc
    have hmem : c ∈ pool.filter (fun c => c.uid != uid) := by
      by_cases ha : ((pool.filter (fun c => c.uid != uid)).all sendOk) = true
      · rw [BroadcastMessage, hgo, if_pos ha] at hc
        exact hc
      · simp only [Bool.not_eq_true] at ha
        rw [BroadcastMessage, hgo] at hc
        simp only [ha, Bool.false_eq_true, if_false] at hc
        rcases List.mem_append.mp hc with h1 | h2
        · exact (List.takeWhile_sublist _).mem h1
        · exact (List.dropWhile_sublist _).mem ((List.take_sublist _ _).mem h2)
    exact (List.mem_filter.mp hmem).2
  · by_cases ha : ((nonExcluded pool uid).all sendOk) = true
    · rw [if_pos ha, BroadcastMessage, hgo, nonExcluded] at *
      simp [ha]
    · simp only [Bool.not_eq_true] at ha
      simp only [ha, Bool.false_eq_true, if_false]
      rw [BroadcastMessage, hgo, nonExcluded]
      simp [nonExcluded] at ha
      simp [ha]

/-- `RemoveClient` (server.c lines 321-343): under the pool mutex, find the
first client with the given uid; if found, `close` its descriptor, free it,
and shift the following entries left by one (decrementing `len`); otherwise
do nothing.  Returns the new pool and the list of file descriptors the
registry itself closed. -/
def RemoveClient : client_pool_t → Int → client_pool_t × List Int
  | [], _ => ([], [])
  | c :: rest, uid =>
    if c.uid = uid then (rest, [c.connfd])
    else (c :: (RemoveClient rest uid).1, (RemoveClient rest uid).2)

theorem removeClient_of_forall_ne (uid : Int) (l : client_pool_t)
    (h : ∀ c, c ∈ l → c.uid ≠ uid) : RemoveClient l uid = (l, []) := by
  induction l with
  | nil => rfl
  | cons c rest ih =>
    have hc : c.uid ≠ uid := h c (List.mem_cons_self c rest)
    have hrest := ih (fun d hd => h d (List.mem_cons_of_mem c hd))
    simp [RemoveClient, hc, hrest]

theorem removeClient_no_match_left (uid : Int) (l : client_pool_t)
    (h : (l.filter (fun c => c.uid == uid)).length ≤ 1) :
    ∀ c, c ∈ (RemoveClient l uid).1 → c.uid ≠ uid := by
  induction l with
  | nil => intro c hc; simp [RemoveClient] at hc
  | cons c rest ih =>
    by_cases hc : c.uid = uid
    · have hf : (rest.filter (fun d => d.uid == uid)) = [] := by
        have : ((c :: rest).filter (fun d => d.uid == uid))
            = c :: rest.filter (fun d => d.uid == uid) := by
          simp [List.filter_cons, hc]
        rw [this] at h
        simp only [List.length_cons] at h
        have : (rest.filter (fun d => d.uid == uid)).length = 0 := by omega
        exact List.eq_nil_of_length_eq_zero this
      intro d hd
      simp only [RemoveClient, hc, if_pos] at hd
      intro hdu
      have : d ∈ rest.filter (fun e => e.uid == uid) := by
        rw [List.mem_filter]
        exact ⟨hd, by simp [hdu]⟩
      rw [hf] at this
      exact absurd this (List.not_mem_nil d)
    · have hrest : (rest.filter (fun d => d.uid == uid)).length ≤ 1 := by
        have : ((c :: rest).filter (fun d => d.uid == uid))
            = rest.filter (fun d => d.uid == uid) := by
          simp [List.filter_cons, hc]
        rw [this] at h
        exact h
      intro d hd
      simp only [RemoveClient, hc, if_neg, not_false_iff, List.mem_cons] at hd
      rcases hd with hd | hd
      · rw [hd]; exact hc
      · exact ih hrest d hd

/-- C7 counterexample: the claim says the registry never closes sockets
during `Remove`, but `RemoveClient` itself closes the removed client's
descriptor (server.c line 328): removing uid 1 from a pool holding a client
with descriptor 5 closes exactly descriptor 5. -/
theorem removeClient_closes_socket_cex :
    (RemoveClient [client_t.mk 5 1 none] 1).2 = [5] ∧
    (RemoveClient [client_t.mk 5 1 none] 1).2 ≠ [] := by
  constructor <;> decide

/-- C7 (amended): when a client with the given uid is present,
`RemoveClient` removes the first such entry, closing that entry's
connection descriptor itself, keeps the remaining entries in their relative
order with no gap, and decrements the count by exactly one. -/
theorem removeClient_found_spec (pool : client_pool_t) (uid : Int)
    (h : ∃ c, c ∈ pool ∧ c.uid = uid) :
    ∃ l₁ c l₂, pool = l₁ ++ c :: l₂ ∧ c.uid = uid ∧
      (∀ d, d ∈ l₁ → d.uid ≠ uid) ∧
      (RemoveClient pool uid).1 = l₁ ++ l₂ ∧
      (RemoveClient pool uid).2 = [c.connfd] ∧
      (RemoveClient pool uid).1.length + 1 = pool.length := by
  induction pool with
  | nil =>
    obtain ⟨c, hc, _⟩ := h
    exact absurd hc (List.not_mem_nil c)
  | cons c rest ih =>
    by_cases hc : c.uid = uid
    · refine ⟨[], c, rest, by simp, hc, by simp, ?_, ?_, ?_⟩
      · simp [RemoveClient, hc]
      · simp [RemoveClient, hc]
      · simp [RemoveClient, hc]
    · obtain ⟨d, hd, hdu⟩ := h
      have hd2 : d ∈ rest := by
        rcases List.mem_cons.mp hd with h1 | h1
        · exact absurd (h1 ▸ hdu) hc
        · exact h1
      obtain ⟨l₁, e, l₂, hsplit, heu, hnone, hrem, hclosed, hlen⟩ :=
        ih ⟨d, hd2, hdu⟩
      refine ⟨c :: l₁, e, l₂, by rw [hsplit]; simp, heu, ?_, ?_, ?_, ?_⟩
      · intro f hf
        rcases List.mem_cons.mp hf with h1 | h1
        · rw [h1]; exact hc
        · exact hnone f h1
      · simp [RemoveClient, hc, hrem]
      · simp [RemoveClient, hc, hclosed]
      · simp only [RemoveClient, hc, if_neg, not_false_iff, List.length_cons]
        omega

/-- C7 witness: concrete instance of `removeClient_found_spec` on a
two-client pool. -/
theorem removeClient_found_spec_witness :
    (∃ c, c ∈ [client_t.mk 5 1 none, client_t.mk 6 2 none] ∧ c.uid = 1) ∧
    (∃ l₁ c l₂, [client_t.mk 5 1 none, client_t.mk 6 2 none]
        = l₁ ++ c :: l₂ ∧ c.uid = 1 ∧
      (∀ d, d ∈ l₁ → d.uid ≠ 1) ∧
      (RemoveClient [client_t.mk 5 1 none, client_t.mk 6 2 none] 1).1
        = l₁ ++ l₂ ∧
      (RemoveClient [client_t.mk 5 1 none, client_t.mk 6 2 none] 1).2
        = [c.connfd] ∧
      (RemoveClient [client_t.mk 5 1 none, client_t.mk 6 2 none] 1).1.length
          + 1
        = [client_t.mk 5 1 none, client_t.mk 6 2 none].length) :=
  ⟨⟨client_t.mk 5 1 none, by decide, by decide⟩,
   removeClient_found_spec [client_t.mk 5 1 none, client_t.mk 6 2 none] 1
     ⟨client_t.mk 5 1 none, by decide, by decide⟩⟩

/-- C9: under the registry invariant that no two entries share a uid (here:
the uid occurs at most once), a second `RemoveClient` of the same uid with
no intervening add is a no-op (pool unchanged, nothing closed); and
removing a uid from a pool not containing it — every uid-free pool is of
the form `pool.filter (c.uid != uid)` — is a no-op. -/
theorem removeClient_idempotent (pool : client_pool_t) (uid : Int)
    (h : (pool.filter (fun c => c.uid == uid)).length ≤ 1) :
    RemoveClient (RemoveClient pool uid).1 uid
      = ((RemoveClient pool uid).1, []) ∧
    RemoveClient (pool.filter (fun c => c.uid != uid)) uid
      = (pool.filter (fun c => c.uid != uid), []) := by
  constructor
  · exact removeClient_of_forall_ne uid (RemoveClient pool uid).1
      (removeClient_no_match_left uid pool h)
  · refine removeClient_of_forall_ne uid _ ?_
    intro c hc
    have := (List.mem_filter.mp hc).2
    simpa using this

/-- C9 witness: concrete instance of `removeClient_idempotent` on a
two-client pool with distinct uids. -/
theorem removeClient_idempotent_witness :
    (([client_t.mk 5 1 none, client_t.mk 6 2 none].filter
        (fun c => c.uid == (1 : Int))).length ≤ 1) ∧
    (RemoveClient
        (RemoveClient [client_t.mk 5 1 none, client_t.mk 6 2 none] 1).1 1
      = ((RemoveClient [client_t.mk 5 1 none, client_t.mk 6 2 none] 1).1,
         []) ∧
     RemoveClient
        ([client_t.mk 5 1 none, client_t.mk 6 2 none].filter
          (fun c => c.uid != (1 : Int))) 1
      = ([client_t.mk 5 1 none, client_t.mk 6 2 none].filter
          (fun c => c.uid != (1 : Int)), [])) :=
  ⟨by decide,
   removeClient_idempotent [client_t.mk 5 1 none, client_t.mk 6 2 none] 1
     (by decide)⟩

/-- Outcome of one call to the `accept` primitive in `AcceptConnection`:
a new connection descriptor, `EAGAIN`, one of the recognized transient
network errors (`ENETDOWN`, `EPROTO`, `ENOPROTOOPT`, `EHOSTDOWN`, `ENONET`,
`EHOSTUNREACH`, `EOPNOTSUPP`, `ENETUNREACH`), or any other error. -/
inductive AcceptOutcome where
  | success (connfd : Int)
  | eagain
  | transient
  | fatal
deriving DecidableEq, Repr

/-- Result of the retry loop of `AcceptConnection` (server.c lines
128-157): a connection, the max-retries failure, or an immediate failure on
an unrecognized error. -/
inductive AcceptResult where
  | ok (connfd : Int)
  | maxRetries
  | err
deriving DecidableEq, Repr

/-- Whether an accept outcome takes a `continue` branch of the loop body
(EAGAIN or a recognized transient network error). -/
def retryable : AcceptOutcome → Bool
  | AcceptOutcome.eagain => true
  | AcceptOutcome.transient => true
  | _ => false

/-- The `for (attempts = 0; attempts < kMaxConnectionAttempts; attempts++)`
loop of `AcceptConnection` (server.c lines 128-153) plus the final
`attempts >= kMaxConnectionAttempts` check (lines 154-157).  `fuel` is the
remaining attempt budget and `i` indexes the oracle of successive `accept`
outcomes.  Note that the C `continue` statements (for EAGAIN and for the
transient network errors alike) jump to the loop increment, so both
decrement the remaining budget. -/
def acceptLoopGo (outcomes : Nat → AcceptOutcome) :
    Nat → Nat → AcceptResult
  | 0, _ => AcceptResult.maxRetries
  | fuel + 1, i =>
    match outcomes i with
    | AcceptOutcome.success c => AcceptResult.ok c
    | AcceptOutcome.eagain => acceptLoopGo outcomes fuel (i + 1)
    | AcceptOutcome.transient => acceptLoopGo outcomes fuel (i + 1)
    | AcceptOutcome.fatal => AcceptResult.err

/-- The retry loop of `AcceptConnection`, started with the full budget of
`kMaxConnectionAttempts` attempts. -/
def acceptLoop (outcomes : Nat → AcceptOutcome) : AcceptResult :=
  acceptLoopGo outcomes kMaxConnectionAttempts 0

theorem acceptLoopGo_maxRetries_iff (outcomes : Nat → AcceptOutcome)
    (fuel i : Nat) :
    acceptLoopGo outcomes fuel i = AcceptResult.maxRetries ↔
      ∀ j, j < fuel → retryable (outcomes (i + j)) = true := by
  induction fuel generalizing i with
  | zero => simp [acceptLoopGo]
  | succ fuel ih =>
    cases houtcome : outcomes i with
    | success c =>
      simp only [acceptLoopGo, houtcome]
      constructor
      · intro h; exact absurd h (by simp)
      · intro h
        have h0 := h 0 (by omega)
        rw [Nat.add_zero, houtcome] at h0
        exact absurd h0 (by simp [retryable])
    | eagain =>
      simp only [acceptLoopGo, houtcome]
      rw [ih (i + 1)]
      constructor
      · intro h j hj
        cases j with
        | zero => rw [Nat.add_zero, houtcome]; rfl
        | succ k =>
          have hk := h k (by omega)
          rw [show i + 1 + k = i + (k + 1) by omega] at hk
          exact hk
      · intro h j hj
        have hk := h (j + 1) (by omega)
        rw [show i + (j + 1) = i + 1 + j by omega] at hk
        exact hk
    | transient =>
      simp only [acceptLoopGo, houtcome]
      rw [ih (i + 1)]
      constructor
      · intro h j hj
        cases j with
        | zero => rw [Nat.add_zero, houtcome]; rfl
        | succ k =>
          have hk := h k (by omega)
          rw [show i + 1 + k = i + (k + 1) by omega] at hk
          exact hk
      · intro h j hj
        have hk := h (j + 1) (by omega)
        rw [show i + (j + 1) = i + 1 + j by omega] at hk
        exact hk
    | fatal =>
      simp only [acceptLoopGo, houtcome]
      constructor
      · intro h; exact absurd h (by simp)
      · intro h
        have h0 := h 0 (by omega)
        rw [Nat.add_zero, houtcome] at h0
        exact absurd h0 (by simp [retryable])

theorem acceptLoopGo_ok_iff (outcomes : Nat → AcceptOutcome)
    (fuel i : Nat) (c : Int) :
    acceptLoopGo outcomes fuel i = AcceptResult.ok c ↔
      ∃ j, j < fuel ∧ outcomes (i + j) = AcceptOutcome.success c ∧
        ∀ k, k < j → retryable (outcomes (i + k)) = true := by
  induction fuel generalizing i with
  | zero => simp [acceptLoopGo]
  | succ fuel ih =>
    cases houtcome : outcomes i with
    | success d =>
      simp only [acceptLoopGo, houtcome]
      constructor
      · intro h
        have hdc : d = c := by
          cases h
          rfl
        exact ⟨0, by omega, by rw [Nat.add_zero, houtcome, hdc],
               fun k hk => absurd hk (by omega)⟩
      · rintro ⟨j, hj, hsucc, hpre⟩
        cases j with
        | zero =>
          rw [Nat.add_zero, houtcome] at hsucc
          cases hsucc
          rfl
        | succ m =>
          have h0 := hpre 0 (by omega)
          rw [Nat.add_zero, houtcome] at h0
          exact absurd h0 (by simp [retryable])
    | eagain =>
      simp only [acceptLoopGo, houtcome]
      rw [ih (i + 1)]
      constructor
      · rintro ⟨j, hj, hsucc, hpre⟩
        refine ⟨j + 1, by omega, ?_, ?_⟩
        · rw [show i + (j + 1) = i + 1 + j by omega]
          exact hsucc
        · intro k hk
          cases k with
          | zero => rw [Nat.add_zero, houtcome]; rfl
          | succ m =>
            have hm := hpre m (by omega)
            rw [show i + 1 + m = i + (m + 1) by omega] at hm
            exact hm
      · rintro ⟨j, hj, hsucc, hpre⟩
        cases j with
        | zero =>
          rw [Nat.add_zero, houtcome] at hsucc
          exact absurd hsucc (by simp)
        | succ m =>
          refine ⟨m, by omega, ?_, ?_⟩
          · rw [show i + 1 + m = i + (m + 1) by omega]
            exact hsucc
          · intro k hk
            have hm := hpre (k + 1) (by omega)
            rw [show i + (k + 1) = i + 1 + k by omega] at hm
            exact hm
    | transient =>
      simp only [acceptLoopGo, houtcome]
      rw [ih (i + 1)]
      constructor
      · rintro ⟨j, hj, hsucc, hpre⟩
        refine ⟨j + 1, by omega, ?_, ?_⟩
        · rw [show i + (j + 1) = i + 1 + j by omega]
          exact hsucc
        · intro k hk
          cases k with
          | zero => rw [Nat.add_zero, houtcome]; rfl
          | succ m =>
            have hm := hpre m (by omega)
            rw [show i + 1 + m = i + (m + 1) by omega] at hm
            exact hm
      · rintro ⟨j, hj, hsucc, hpre⟩
        cases j with
        | zero =>
          rw [Nat.add_zero, houtcome] at hsucc
          exact absurd hsucc (by simp)
        | succ m =>
          refine ⟨m, by omega, ?_, ?_⟩
          · rw [show i + 1 + m = i + (m + 1) by omega]
            exact hsucc
          · intro k hk
            have hm := hpre (k + 1) (by omega)
            rw [show i + (k + 1) = i + 1 + k by omega] at hm
            exact hm
    | fatal =>
      simp only [acceptLoopGo, houtcome]
      constructor
      · intro h; exact absurd h (by simp)
      · rintro ⟨j, hj, hsucc, hpre⟩
        cases j with
        | zero =>
          rw [Nat.add_zero, houtcome] at hsucc
          exact absurd hsucc (by simp)
        | succ m =>
          have h0 := hpre 0 (by omega)
          rw [Nat.add_zero, houtcome] at h0
          exact absurd h0 (by simp [retryable])

theorem acceptLoopGo_err_iff (outcomes : Nat → AcceptOutcome)
    (fuel i : Nat) :
    acceptLoopGo outcomes fuel i = AcceptResult.err ↔
      ∃ j, j < fuel ∧ outcomes (i + j) = AcceptOutcome.fatal ∧
        ∀ k, k < j → retryable (outcomes (i + k)) = true := by
  induction fuel generalizing i with
  | zero => simp [acceptLoopGo]
  | succ fuel ih =>
    cases houtcome : outcomes i with
    | success d =>
      simp only [acceptLoopGo, houtcome]
      constructor
      · intro h; exact absurd h (by simp)
      · rintro ⟨j, hj, hfat, hpre⟩
        cases j with
        | zero =>
          rw [Nat.add_zero, houtcome] at hfat
          exact absurd hfat (by simp)
        | succ m =>
          have h0 := hpre 0 (by omega)
          rw [Nat.add_zero, houtcome] at h0
          exact absurd h0 (by simp [retryable])
    | eagain =>
      simp only [acceptLoopGo, houtcome]
      rw [ih (i + 1)]
      constructor
      · rintro ⟨j, hj, hfat, hpre⟩
        refine ⟨j + 1, by omega, ?_, ?_⟩
        · rw [show i + (j + 1) = i + 1 + j by omega]
          exact hfat
        · intro k hk
          cases k with
          | zero => rw [Nat.add_zero, houtcome]; rfl
          | succ m =>
            have hm := hpre m (by omega)
            rw [show i + 1 + m = i + (m + 1) by omega] at hm
            exact hm
      · rintro ⟨j, hj, hfat, hpre⟩
        cases j with
        | zero =>
          rw [Nat.add_zero, houtcome] at hfat
          exact absurd hfat (by simp)
        | succ m =>
          refine ⟨m, by omega, ?_, ?_⟩
          · rw [show i + 1 + m = i + (m + 1) by omega]
            exact hfat
          · intro k hk
            have hm := hpre (k + 1) (by omega)
            rw [show i + (k + 1) = i + 1 + k by omega] at hm
            exact hm
    | transient =>
      simp only [acceptLoopGo, houtcome]
      rw [ih (i + 1)]
      constructor
      · rintro ⟨j, hj, hfat, hpre⟩
        refine ⟨j + 1, by omega, ?_, ?_⟩
        · rw [show i + (j + 1) = i + 1 + j by omega]
          exact hfat
        · intro k hk
          cases k with
          | zero => rw [Nat.add_zero, houtcome]; rfl
          | succ m =>
            have hm := hpre m (by omega)
            rw [show i + 1 + m = i + (m + 1) by omega] at hm
            exact hm
      · rintro ⟨j, hj, hfat, hpre⟩
        cases j with
        | zero =>
          rw [Nat.add_zero, houtcome] at hfat
          exact absurd hfat (by simp)
        | succ m =>
          refine ⟨m, by omega, ?_, ?_⟩
          · rw [show i + 1 + m = i + (m + 1) by omega]
            exact hfat
          · intro k hk
            have hm := hpre (k + 1) (by omega)
            rw [show i + (k + 1) = i + 1 + k by omega] at hm
            exact hm
    | fatal =>
      simp only [acceptLoopGo, houtcome]
      constructor
      · intro _
        exact ⟨0, by omega, by rw [Nat.add_zero, houtcome],
               fun k hk => absurd hk (by omega)⟩
      · intro _; trivial

/-- C5 counterexample: the claim says EAGAIN failures alone never cause the
max-retries failure, but `continue` on EAGAIN still runs the loop's
`attempts++`, so an oracle answering EAGAIN forever (in particular for the
first 5 calls) makes `AcceptConnection` fail with max retries; the claim
instead predicts the success at call 6 would be reached. -/
theorem accept_eagain_budget_cex :
    acceptLoop (fun _ => AcceptOutcome.eagain) = AcceptResult.maxRetries ∧
    acceptLoop (fun i => if i < 5 then AcceptOutcome.eagain
                         else AcceptOutcome.success 7)
      ≠ AcceptResult.ok 7 := by
  constructor <;> decide

/-- C5 (amended): an EAGAIN failure is retried immediately, but it
increments the attempt counter exactly like the recognized transient
network errors, so `kMaxConnectionAttempts` (5) consecutive EAGAIN
failures alone cause the accept loop to fail with max retries. -/
theorem accept_eagain_counts_against_budget (outcomes : Nat → AcceptOutcome)
    (h : ∀ i, i < kMaxConnectionAttempts →
           outcomes i = AcceptOutcome.eagain) :
    acceptLoop outcomes = AcceptResult.maxRetries := by
  rw [acceptLoop, acceptLoopGo_maxRetries_iff]
  intro j hj
  rw [Nat.zero_add, h j hj]
  rfl

/-- C5 witness: concrete instance of `accept_eagain_counts_against_budget`
on the all-EAGAIN oracle. -/
theorem accept_eagain_counts_against_budget_witness :
    (∀ i, i < kMaxConnectionAttempts →
       (fun _ => AcceptOutcome.eagain) i = AcceptOutcome.eagain) ∧
    acceptLoop (fun _ => AcceptOutcome.eagain) = AcceptResult.maxRetries :=
  ⟨fun _ _ => rfl,
   accept_eagain_counts_against_budget (fun _ => AcceptOutcome.eagain)
     (fun _ _ => rfl)⟩

/-- C6 counterexample: the claim says that a success occurring before the
5th consecutive transient-network-error failure makes Accept return the new
session; with 5 EAGAIN outcomes (zero transient network errors) followed by
a success, the loop instead exhausts its budget and fails with max
retries. -/
theorem accept_success_after_eagains_cex :
    acceptLoop (fun i => if i < 5 then AcceptOutcome.eagain
                         else AcceptOutcome.success 42)
      = AcceptResult.maxRetries ∧
    acceptLoop (fun i => if i < 5 then AcceptOutcome.eagain
                         else AcceptOutcome.success 42)
      ≠ AcceptResult.ok 42 := by
  constructor <;> decide

/-- C6 (amended): the accept loop fails with max retries exactly when its
first `kMaxConnectionAttempts` (5) outcomes are all retryable (EAGAIN or a
recognized transient network error); it returns connection `c` exactly when
some `success c` occurs within the first 5 outcomes preceded only by
retryable outcomes; and it fails immediately exactly when an unrecognized
error occurs within the first 5 outcomes preceded only by retryable
outcomes (in particular, later outcomes are never consulted in that
case). -/
theorem acceptLoop_characterization (outcomes : Nat → AcceptOutcome) :
    (acceptLoop outcomes = AcceptResult.maxRetries ↔
       ∀ i, i < kMaxConnectionAttempts → retryable (outcomes i) = true) ∧
    (∀ c, acceptLoop outcomes = AcceptResult.ok c ↔
       ∃ j, j < kMaxConnectionAttempts ∧
         outcomes j = AcceptOutcome.success c ∧
         ∀ k, k < j → retryable (outcomes k) = true) ∧
    (acceptLoop outcomes = AcceptResult.err ↔
       ∃ j, j < kMaxConnectionAttempts ∧
         outcomes j = AcceptOutcome.fatal ∧
         ∀ k, k < j → retryable (outcomes k) = true) := by
  refine ⟨?_, ?_, ?_⟩
  · rw [acceptLoop, acceptLoopGo_maxRetries_iff]
    simp only [Nat.zero_add]
  · intro c
    rw [acceptLoop, acceptLoopGo_ok_iff]
    simp only [Nat.zero_add]
  · rw [acceptLoop, acceptLoopGo_err_iff]
    simp only [Nat.zero_add]

/-- The post-loop body of `AcceptConnection` (server.c lines 159-175):
allocate a `client_t`, set its `connfd` and `uid` — the `name` buffer is
left unwritten at this point — then call `AddClient`.  If `AddClient`
fails, the client is freed, the connection closed, and the pool is left as
it was; otherwise the freshly allocated (still unnamed) client is now in
the pool and is returned to the caller, which spawns `HandleClient` on
it. -/
def acceptRegister (pool : client_pool_t) (connfd uid : Int) :
    client_pool_t × Option client_t :=
  if (AddClient pool (client_t.mk connfd uid none)).2 < 0 then (pool, none)
  else ((AddClient pool (client_t.mk connfd uid none)).1,
        some (client_t.mk connfd uid none))

/-- The handshake's name write `cli->name` (server.c lines 231-238) seen
through the registry: `HandleClient` writes the name buffer of the client
it was spawned on, which `AcceptConnection` already registered, so the
registry entry with that uid acquires its name only now. -/
def handleClientSetName (pool : client_pool_t) (uid : Int)
    (buf : List Char) : client_pool_t :=
  pool.map (fun c =>
    if c.uid = uid then client_t.mk c.connfd c.uid (some buf) else c)

/-- C3 counterexample: accepting a connection on the empty pool registers
the session before any handshake has run — the registry then contains a
session whose name is still unset, and a broadcast by another session
(uid 99) attempts a send to that unnamed session. -/
theorem register_before_handshake_cex :
    (acceptRegister [] 3 0).1 = [client_t.mk 3 0 none] ∧
    (client_t.mk 3 0 none).name = none ∧
    (BroadcastMessage (fun _ => true) (acceptRegister [] 3 0).1 99).1
      = [client_t.mk 3 0 none] := by
  refine ⟨by decide, rfl, by decide⟩

/-- C3 (amended): the session is inserted into the registry by the
acceptor at accept time with its display name still unset; the handshake
then sets the name of the already-registered session.  So during the
handshake window a session with unset name is present in the registry (and
is included in broadcasts). -/
theorem acceptRegister_inserts_unnamed (pool : client_pool_t)
    (connfd uid : Int) (nm : List Char)
    (h : pool.length + 1 < kMaxClients) :
    (acceptRegister pool connfd uid).1
      = pool ++ [client_t.mk connfd uid none] ∧
    client_t.mk connfd uid none ∈ (acceptRegister pool connfd uid).1 ∧
    client_t.mk connfd uid (some nm)
      ∈ handleClientSetName (acceptRegister pool connfd uid).1 uid nm := by
  have hlt : ¬ (pool.length + 1 ≥ kMaxClients) := by omega
  have hadd : AddClient pool (client_t.mk connfd uid none)
      = (pool ++ [client_t.mk connfd uid none], 0) := by
    simp [AddClient, hlt]
  have hreg : (acceptRegister pool connfd uid).1
      = pool ++ [client_t.mk connfd uid none] := by
    simp [acceptRegister, hadd]
  refine ⟨hreg, ?_, ?_⟩
  · rw [hreg]
    exact List.mem_append_right pool (List.mem_singleton.mpr rfl)
  · rw [hreg, handleClientSetName]
    have hmem : client_t.mk connfd uid none
        ∈ pool ++ [client_t.mk connfd uid none] :=
      List.mem_append_right pool (List.mem_singleton.mpr rfl)
    have himg := List.mem_map_of_mem
      (fun c => if c.uid = uid then client_t.mk c.connfd c.uid (some nm)
                else c) hmem
    simp only [if_pos rfl] at himg
    exact himg

/-- C3 witness: concrete instance of `acceptRegister_inserts_unnamed` on
the empty pool. -/
theorem acceptRegister_inserts_unnamed_witness :
    (List.length ([] : client_pool_t) + 1 < kMaxClients) ∧
    ((acceptRegister [] 3 0).1 = [] ++ [client_t.mk 3 0 none] ∧
     client_t.mk 3 0 none ∈ (acceptRegister [] 3 0).1 ∧
     client_t.mk 3 0 (some ['a'])
       ∈ handleClientSetName (acceptRegister [] 3 0).1 0 ['a']) :=
  ⟨by decide, acceptRegister_inserts_unnamed [] 3 0 ['a'] (by decide)⟩

/-- Outcome of one `recv` on a client connection: an error (`msg_len < 0`)
or the list of bytes received (`[]` meaning the peer closed the
connection). -/
inductive RecvOutcome where
  | rerr
  | rdata (bytes : List Char)
deriving DecidableEq, Repr

/-- What one iteration of the `HandleClient` message loop does after the
`recv`: break out without a leave announcement (read error), announce the
leave broadcast and break (peer closed or exit command), or broadcast the
received message to the other clients and continue. -/
inductive StepAction where
  | closeSilently
  | leaveAndClose
  | broadcast (payload : List Char)
deriving DecidableEq, Repr

/-- Contents of the `msg` buffer after a `recv` that returned `bytes`:
the received bytes overwrite the front, the rest of the buffer keeps its
previous contents (`msg` is never cleared in `HandleClient`). -/
def msgBuf (bufPrev bytes : List Char) : List Char :=
  bytes ++ bufPrev.drop bytes.length

/-- The chat payload the loop forwards (server.c lines 265-268): the last
received byte is overwritten with NUL and the buffer is then read as a C
string (up to its first NUL). -/
def broadcastPayload (bufPrev bytes : List Char) : List Char :=
  ((msgBuf bufPrev bytes).take (bytes.length - 1)).takeWhile notNul

/-- One iteration of the `while (1)` message loop of `HandleClient`
(server.c lines 248-273): `msg_len < 0` breaks silently; `msg_len == 0` or
`strncmp(msg, kExitCommand, strlen(kExitCommand)) == 0` — a comparison of
the buffer's first five bytes only — announces the leave broadcast and
breaks; anything else broadcasts the trimmed message. -/
def activeStep (bufPrev : List Char) (r : RecvOutcome) : StepAction :=
  match r with
  | RecvOutcome.rerr => StepAction.closeSilently
  | RecvOutcome.rdata bytes =>
    if bytes.length = 0 ∨
        (msgBuf bufPrev bytes).take kExitCommand.length = kExitCommand then
      StepAction.leaveAndClose
    else StepAction.broadcast (broadcastPayload bufPrev bytes)

/-- C4 counterexample: the received message `/exitXY` does not equal the
exit sentinel `/exit`, yet the handler announces the leave broadcast and
closes — the code compares only the first `strlen("/exit")` bytes, a prefix
check, not equality.  (The stale buffer here is the all-NUL buffer.) -/
theorem exit_sentinel_prefix_cex :
    activeStep (List.replicate kMessageCharLimit nul)
        (RecvOutcome.rdata ['/', 'e', 'x', 'i', 't', 'X', 'Y'])
      = StepAction.leaveAndClose ∧
    (['/', 'e', 'x', 'i', 't', 'X', 'Y'] : List Char) ≠ kExitCommand := by
  constructor <;> decide

/-- C4 (amended): in the Active state the handler announces the leave
broadcast and transitions to Closing exactly when the read returns zero
bytes or the first five bytes of the message buffer equal the exit
sentinel `/exit` (a prefix comparison); otherwise the received message is
broadcast and the session continues; a failed read closes without a leave
announcement. -/
theorem activeStep_leave_characterization (bufPrev bytes : List Char) :
    activeStep bufPrev RecvOutcome.rerr = StepAction.closeSilently ∧
    (activeStep bufPrev (RecvOutcome.rdata bytes) = StepAction.leaveAndClose
      ↔ bytes = [] ∨
          (msgBuf bufPrev bytes).take kExitCommand.length = kExitCommand) ∧
    (if bytes = [] ∨
        (msgBuf bufPrev bytes).take kExitCommand.length = kExitCommand then
       activeStep bufPrev (RecvOutcome.rdata bytes)
         = StepAction.leaveAndClose
     else
       activeStep bufPrev (RecvOutcome.rdata bytes)
         = StepAction.broadcast (broadcastPayload bufPrev bytes)) := by
  have hlen : bytes.length = 0 ↔ bytes = [] := List.length_eq_zero
  by_cases hcond : bytes = [] ∨
      (msgBuf bufPrev bytes).take kExitCommand.length = kExitCommand
  · refine ⟨rfl, ?_, ?_⟩
    · constructor
      · intro _; exact hcond
      · intro _
        simp [activeStep, hlen, hcond]
    · simp [activeStep, hlen, hcond]
  · refine ⟨rfl, ?_, ?_⟩
    · constructor
      · intro h
        rw [activeStep] at h
        rw [if_neg (by rw [hlen]; exact hcond)] at h
        exact absurd h (by simp)
      · intro h; exact absurd h hcond
    · rw [if_neg hcond, activeStep, if_neg (by rw [hlen]; exact hcond)]

/-- Read a byte of a buffer at an index computed in C `ssize_t`
arithmetic: `none` when the index is outside the buffer. -/
def getAt (l : List Char) (i : Int) : Option Char :=
  if 0 ≤ i then l.get? i.toNat else none

/-- Write a byte of a buffer at an index computed in C `ssize_t`
arithmetic: `none` when the index is outside the buffer. -/
def setAt (l : List Char) (i : Int) (c : Char) : Option (List Char) :=
  if 0 ≤ i ∧ i.toNat < l.length then some (l.set i.toNat c) else none

/-- The `cli->name` buffer after `memset(cli->name, 0, kNameCharLimit)`
followed by `strncpy(cli->name, name, name_len)` (server.c lines 231-232),
where `received` is exactly the `name_len` bytes `recv` produced: the
received bytes up to their first NUL, NUL-padded to `kNameCharLimit`. -/
def strncpyInto (received : List Char) : List Char :=
  received.takeWhile notNul ++
    List.replicate
      (kNameCharLimit - (received.takeWhile notNul).length) nul

/-- The name-trimming step of the handshake (server.c lines 233-238):
`cli->name[name_len - 1] = '\0'`, then if `cli->name[name_len - 2]` is a
carriage return it is zeroed too.  Both indices are signed C expressions;
an access outside the buffer yields `none`. -/
def handshakeTrim (received : List Char) : Option (List Char) :=
  match setAt (strncpyInto received) ((received.length : Int) - 1) nul with
  | none => none
  | some buf1 =>
    match getAt buf1 ((received.length : Int) - 2) with
    | none => none
    | some c =>
      if c = '\r' then setAt buf1 ((received.length : Int) - 2) nul
      else some buf1

/-- Result of the Handshaking state on one `recv` of the name: proceed to
teardown (`name_len <= 0`), proceed with the name buffer written, or hit an
out-of-range buffer access (undefined behavior in the C source). -/
inductive HandshakeStep where
  | closing
  | named (buf : List Char)
  | outOfRange
deriving DecidableEq, Repr

/-- The handshake of `HandleClient` (server.c lines 226-238): on a failed
or empty read go straight to the teardown path; otherwise run the
name-trimming step on the received bytes. -/
def handshakeStep (r : RecvOutcome) : HandshakeStep :=
  match r with
  | RecvOutcome.rerr => HandshakeStep.closing
  | RecvOutcome.rdata received =>
    if received.length = 0 then HandshakeStep.closing
    else
      match handshakeTrim received with
      | some buf => HandshakeStep.named buf
      | none => HandshakeStep.outOfRange

/-- A buffer read as a C string: its bytes up to the first NUL. -/
def asCString (buf : List Char) : List Char :=
  buf.takeWhile notNul

theorem takeWhile_eq_self_of_forall {p : Char → Bool} (l : List Char)
    (h : ∀ c, c ∈ l → p c = true) : l.takeWhile p = l := by
  induction l with
  | nil => rfl
  | cons c rest ih =>
    rw [List.takeWhile_cons, h c (List.mem_cons_self c rest)]
    rw [ih (fun d hd => h d (List.mem_cons_of_mem c hd))]
    simp

theorem takeWhile_append_stop {p : Char → Bool} (l₁ l₂ : List Char)
    (a : Char) (h1 : ∀ c, c ∈ l₁ → p c = true) (h2 : p a = false) :
    (l₁ ++ a :: l₂).takeWhile p = l₁ := by
  induction l₁ with
  | nil => simp [List.takeWhile_cons, h2]
  | cons c rest ih =>
    rw [List.cons_append, List.takeWhile_cons,
      h1 c (List.mem_cons_self c rest)]
    rw [ih (fun d hd => h1 d (List.mem_cons_of_mem c hd))]
    simp

theorem notNul_eq_true {c : Char} (h : c ≠ nul) : notNul c = true := by
  rw [notNul]
  exact bne_iff_ne.mpr h

theorem notNul_nul : notNul nul = false := by
  rw [notNul]
  simp

theorem handshakeTrim_no_nul (received : List Char)
    (h2 : 2 ≤ received.length)
    (hlim : received.length ≤ kNameCharLimit - 1)
    (hnn : ∀ c, c ∈ received → c ≠ nul) :
    ∃ buf, handshakeTrim received = some buf ∧
      asCString buf =
        if received.get? (received.length - 2) = some '\r' then
          received.take (received.length - 2)
        else received.take (received.length - 1) := by
  have hk : kNameCharLimit = 64 := rfl
  have htw : received.takeWhile notNul = received :=
    takeWhile_eq_self_of_forall received
      (fun c hc => notNul_eq_true (hnn c hc))
  have hstr : strncpyInto received
      = received ++
          List.replicate (kNameCharLimit - received.length) nul := by
    rw [strncpyInto, htw]
  have hlen0 : (received ++
      List.replicate (kNameCharLimit - received.length) nul).length
      = kNameCharLimit := by
    rw [List.length_append, List.length_replicate]
    omega
  have ht1 : (((received.length : Int) - 1)).toNat = received.length - 1 :=
    by omega
  have hlt1 : received.length - 1 < received.length := by omega
  have hset1 : setAt (strncpyInto received) ((received.length : Int) - 1) nul
      = some (received.take (received.length - 1) ++ nul ::
          List.replicate (kNameCharLimit - received.length) nul) := by
    rw [hstr, setAt, if_pos ⟨by omega, by rw [ht1, hlen0]; omega⟩, ht1]
    rw [List.set_append_left _ _ hlt1]
    rw [List.set_eq_take_cons_drop nul hlt1]
    rw [show received.length - 1 + 1 = received.length by omega]
    rw [List.drop_eq_nil_of_le (le_refl received.length)]
    simp
  have ht2 : (((received.length : Int) - 2)).toNat = received.length - 2 :=
    by omega
  have hlen_take : (received.take (received.length - 1)).length
      = received.length - 1 := by
    rw [List.length_take]
    omega
  have hget : getAt (received.take (received.length - 1) ++ nul ::
        List.replicate (kNameCharLimit - received.length) nul)
        ((received.length : Int) - 2)
      = received.get? (received.length - 2) := by
    rw [getAt, if_pos (by omega : (0 : Int) ≤ (received.length : Int) - 2),
      ht2]
    rw [List.get?_append (by omega : received.length - 2 <
      (received.take (received.length - 1)).length)]
    exact List.get?_take (by omega : received.length - 2 <
      received.length - 1)
  obtain ⟨c, hc⟩ : ∃ c, received.get? (received.length - 2) = some c :=
    ⟨received.get ⟨received.length - 2, by omega⟩,
     List.get?_eq_get (by omega)⟩
  have hcmem : c ∈ received := List.get?_mem hc
  by_cases hcr : c = '\r'
  · have hset2 : setAt (received.take (received.length - 1) ++ nul ::
          List.replicate (kNameCharLimit - received.length) nul)
          ((received.length : Int) - 2) nul
        = some (received.take (received.length - 2) ++ nul :: nul ::
            List.replicate (kNameCharLimit - received.length) nul) := by
      rw [setAt, if_pos ⟨by omega, by
        rw [ht2, List.length_append, List.length_cons,
          List.length_replicate, hlen_take]
        omega⟩, ht2]
      rw [List.set_append_left _ _ (by omega : received.length - 2 <
        (received.take (received.length - 1)).length)]
      rw [List.set_eq_take_cons_drop nul
        (by omega : received.length - 2 <
          (received.take (received.length - 1)).length)]
      rw [List.take_take]
      rw [show min (received.length - 2) (received.length - 1)
        = received.length - 2 by omega]
      rw [show received.length - 2 + 1 = received.length - 1 by omega]
      rw [List.drop_eq_nil_of_le (by omega :
        (received.take (received.length - 1)).length ≤
          received.length - 1)]
      simp
    refine ⟨received.take (received.length - 2) ++ nul :: nul ::
        List.replicate (kNameCharLimit - received.length) nul, ?_, ?_⟩
    · rw [handshakeTrim, hset1]
      simp only [hget, hc, if_pos hcr, hset2]
    · rw [if_pos (by rw [hc, hcr])]
      rw [asCString]
      exact takeWhile_append_stop _ _ _
        (fun d hd => notNul_eq_true
          (hnn d (List.mem_of_mem_take hd)))
        notNul_nul
  · refine ⟨received.take (received.length - 1) ++ nul ::
        List.replicate (kNameCharLimit - received.length) nul, ?_, ?_⟩
    · rw [handshakeTrim, hset1]
      simp only [hget, hc, if_neg hcr]
    · rw [if_neg (by rw [hc]; intro heq; exact hcr (Option.some.inj heq))]
      rw [asCString]
      exact takeWhile_append_stop _ _ _
        (fun d hd => notNul_eq_true
          (hnn d (List.mem_of_mem_take hd)))
        notNul_nul

/-- C8 counterexample: the claim says the handshake strips a single
trailing newline and leaves all other received name bytes unchanged, but
the code zeroes the last received byte unconditionally: the received name
`alice`, which has no trailing newline, comes out as `alic`. -/
theorem name_trim_unconditional_cex :
    (handshakeTrim ['a', 'l', 'i', 'c', 'e']).map asCString
      = some ['a', 'l', 'i', 'c'] ∧
    (['a', 'l', 'i', 'c'] : List Char) ≠ ['a', 'l', 'i', 'c', 'e'] := by
  constructor <;> decide

/-- C8 (amended): during Handshaking the handler reads at most
`kNameCharLimit - 1` bytes; it zeroes the last received byte
unconditionally — whether or not it is a newline — and additionally zeroes
the byte before it when that byte is a carriage return; on a failed or
empty read it proceeds directly to the teardown path without setting the
name.  (Stated for reads of at least two NUL-free bytes; a one-byte read
is the out-of-bounds case of C10.) -/
theorem handshake_name_spec (received : List Char)
    (h2 : 2 ≤ received.length)
    (hlim : received.length ≤ kNameCharLimit - 1)
    (hnn : ∀ c, c ∈ received → c ≠ nul) :
    (∃ buf, handshakeStep (RecvOutcome.rdata received)
        = HandshakeStep.named buf ∧
      asCString buf =
        if received.get? (received.length - 2) = some '\r' then
          received.take (received.length - 2)
        else received.take (received.length - 1)) ∧
    handshakeStep RecvOutcome.rerr = HandshakeStep.closing ∧
    handshakeStep (RecvOutcome.rdata []) = HandshakeStep.closing := by
  obtain ⟨buf, hbuf, hstr⟩ := handshakeTrim_no_nul received h2 hlim hnn
  refine ⟨⟨buf, ?_, hstr⟩, rfl, rfl⟩
  rw [handshakeStep, if_neg (by omega : ¬ received.length = 0), hbuf]

/-- C8 witness: concrete instance of `handshake_name_spec` on the received
name `bob` followed by a carriage return and newline, which the handshake
trims to `bob`. -/
theorem handshake_name_spec_witness :
    (2 ≤ (['b', 'o', 'b', '\r', '\n'] : List Char).length ∧
     (['b', 'o', 'b', '\r', '\n'] : List Char).length ≤ kNameCharLimit - 1 ∧
     (∀ c, c ∈ (['b', 'o', 'b', '\r', '\n'] : List Char) → c ≠ nul)) ∧
    ((∃ buf, handshakeStep (RecvOutcome.rdata ['b', 'o', 'b', '\r', '\n'])
        = HandshakeStep.named buf ∧
      asCString buf =
        if (['b', 'o', 'b', '\r', '\n'] : List Char).get?
            ((['b', 'o', 'b', '\r', '\n'] : List Char).length - 2)
            = some '\r' then
          (['b', 'o', 'b', '\r', '\n'] : List Char).take
            ((['b', 'o', 'b', '\r', '\n'] : List Char).length - 2)
        else
          (['b', 'o', 'b', '\r', '\n'] : List Char).take
            ((['b', 'o', 'b', '\r', '\n'] : List Char).length - 1)) ∧
     handshakeStep RecvOutcome.rerr = HandshakeStep.closing ∧
     handshakeStep (RecvOutcome.rdata []) = HandshakeStep.closing) :=
  ⟨⟨by decide, by decide, by decide⟩,
   handshake_name_spec ['b', 'o', 'b', '\r', '\n'] (by decide) (by decide)
     (by decide)⟩

/-- C10: a handshake read of a single byte (`name_len = 1`) makes the
carriage-return check read `cli->name[-1]`, outside the name buffer: in
the total embedding the out-of-range branch is reached (the claim asserts
it is unreachable for every `name_len ≥ 1`).  For two or more received
bytes the accesses are in bounds. -/
theorem handshake_oob_at_len_one :
    handshakeTrim ['a'] = none ∧
    handshakeStep (RecvOutcome.rdata ['a']) = HandshakeStep.outOfRange ∧
    (handshakeTrim ['a', '\n']).isSome = true := by
  refine ⟨by decide, by decide, by decide⟩

end Chatroom
